import Mathlib

/-!
Verification of the autoregressive character sampler of
`labs/06_deep_nlp/Character_Level_Language_Model.ipynb` and the one-hot
embedding identity of `labs/03_neural_recsys/Short_Intro_to_Embeddings_with_Keras.ipynb`.

The numpy code is shallowly embedded: float64 values become real numbers,
vectorized numpy calls become list maps/folds, the implicit process-local
random source becomes an explicit parameter (a uniform draw in `[0,1)` per
sampling step, consumed by inverse-cdf categorical selection, which is what a
single-trial `np.random.multinomial` performs), and operations that can raise
(dict lookups, out-of-range indexed stores) return `Option`.
-/

namespace CharLM

/-- Models numpy `exp(log x / t)` applied entrywise for a temperature `t > 0`
(the only regime exercised below): a positive float maps to
`Real.exp (Real.log x / t)`; numpy sends `x = 0` through `log 0 = -inf`,
`-inf / t = -inf` (for `t > 0`) and `exp (-inf) = 0`, hence `0`; a negative
`x` would produce a NaN, modelled as `none`. -/
noncomputable def npLogDivExp (t x : ℝ) : Option ℝ :=
  if x < 0 then none
  else if x = 0 then some 0
  else some (Real.exp (Real.log x / t))

/-- The two vectorized lines `preds = np.log(preds) / temperature` and
`exp_preds = np.exp(preds)` of `sample_one`, applied entrywise. -/
noncomputable def mapLogExp (t : ℝ) : List ℝ → Option (List ℝ)
  | [] => some []
  | p :: ps => do
      let y ← npLogDivExp t p
      let ys ← mapLogExp t ps
      return y :: ys

/-- The rescaled-then-renormalized weights computed by `sample_one` before the
multinomial draw: `exp_preds / np.sum(exp_preds)`. -/
noncomputable def sample_one_weights (preds : List ℝ) (temperature : ℝ) :
    Option (List ℝ) := do
  let exp_preds ← mapLogExp temperature preds
  return exp_preds.map (fun e => e / exp_preds.sum)

/-- One draw from a categorical distribution by inversion of the cumulative
distribution function at a uniform value `u`: the first index whose cumulative
weight exceeds `u` (the list length if the total weight never exceeds `u`). -/
noncomputable def categorical_draw (u : ℝ) : List ℝ → ℕ
  | [] => 0
  | p :: rest => if u < p then 0 else categorical_draw (u - p) rest + 1

/-- The counts array returned by a single-trial multinomial over `n`
categories when category `d` is drawn: all zeros except a `1` at `d`
(all zeros when `d` is out of range). -/
def oneHotCounts : ℕ → ℕ → List ℕ
  | 0, _ => []
  | n + 1, 0 => 1 :: List.replicate n 0
  | n + 1, d + 1 => 0 :: oneHotCounts n d

/-- Models `np.random.multinomial(1, pvals, size=1)` (flattened) with the
uniform draw `u` made explicit; faithful on the regime of valid `pvals`
(entries nonnegative, total mass at most one), the only regime reached in this
development. -/
noncomputable def np_multinomial_one (u : ℝ) (pvals : List ℝ) : List ℕ :=
  oneHotCounts pvals.length (categorical_draw u pvals)

/-- Models `np.argmax` on the multinomial counts array: the index of the first
occurrence of the maximum entry. -/
def np_argmax (l : List ℕ) : ℕ :=
  l.indexOf (l.foldr max 0)

/-- Embedding of `sample_one(preds, temperature)` from the notebook, with the
random source made explicit as a uniform value `u`:
log-rescale by the temperature, exponentiate, renormalize, draw a single
multinomial sample and return the argmax of the counts array. -/
noncomputable def sample_one (u : ℝ) (preds : List ℝ) (temperature : ℝ) :
    Option ℕ := do
  let w ← sample_one_weights preds temperature
  let probs := np_multinomial_one u w
  return np_argmax probs

/-- The spec's claimed closed form for the sampling weights: each probability
raised to the power `1 / temperature`, renormalized. Stated from the spec's
words, to be compared with `sample_one_weights`. -/
noncomputable def rpowWeights (preds : List ℝ) (temperature : ℝ) : List ℝ :=
  (preds.map (fun p => p ^ (1 / temperature))).map
    (fun e => e / (preds.map (fun p => p ^ (1 / temperature))).sum)

/-- `chars = sorted(list(set(text)))`: the vocabulary built from a corpus, its
distinct characters in ascending order. -/
def build (corpus : List Char) : List Char :=
  List.insertionSort (fun a b => a ≤ b) corpus.dedup

/-- `char_indices[c]`: the dictionary from characters to their position in
`chars` (built by `enumerate`, so each character maps to its unique index in
the duplicate-free `chars`); looking up an absent key raises `KeyError`,
modelled as `none`. -/
def char_indices (vocab : List Char) (c : Char) : Option ℕ :=
  if c ∈ vocab then some (List.indexOf c vocab) else none

/-- `indices_char[i]`: the reverse dictionary from positions to characters;
looking up an absent key raises `KeyError`, modelled as `none`. -/
def indices_char (vocab : List Char) (i : ℕ) : Option Char :=
  vocab.get? i

/-- A single store `x[r] = row updated with column c set to v` with numpy
integer indexing on the row axis: a negative row index counts from the end (a
single wrap), an index outside `[-len, len)` raises `IndexError`, modelled as
`none`; the natural-number column index is checked against the row width. -/
def np_set_row (x : List (List ℝ)) (r : ℤ) (c : ℕ) (v : ℝ) :
    Option (List (List ℝ)) :=
  let r' : ℤ := if r < 0 then r + x.length else r
  if 0 ≤ r' ∧ r' < (x.length : ℤ) then
    let rn : ℕ := r'.toNat
    let row := x.getD rn []
    if c < row.length then some (x.set rn (row.set c v)) else none
  else none

/-- `np.zeros((max_length, voc_size))`: the zero tensor. The singleton batch
axis of the notebook's `(1, max_length, voc_size)` tensor is elided, as is its
`float32` dtype (all values kept as reals). -/
def zeroTensor (W V : ℕ) : List (List ℝ) :=
  List.replicate W (List.replicate V (0 : ℝ))

/-- The vectorization loop of `generate_text`, namely
`for t, char in enumerate(prefix): x[0, t + shift, char_indices[char]] = 1.`,
with the enumeration counter starting at `t0`. -/
def vec_loop (vocab : List Char) (shift : ℤ) :
    ℕ → List Char → List (List ℝ) → Option (List (List ℝ))
  | _, [], x => some x
  | t, ch :: cs, x => do
      let ci ← char_indices vocab ch
      let x' ← np_set_row x ((t : ℤ) + shift) ci 1
      vec_loop vocab shift (t + 1) cs x'

/-- The context-window vectorization step of `generate_text`: a zero tensor of
shape `(max_length, voc_size)`, `shift = max_length - len(pfx)` (an integer,
negative when the window is longer than `max_length`), and one one-hot write
per window character. -/
def vectorize (W : ℕ) (vocab : List Char) (pfx : List Char) :
    Option (List (List ℝ)) :=
  vec_loop vocab ((W : ℤ) - pfx.length) 0 pfx (zeroTensor W vocab.length)

/-- A one-hot row of width `V` with its 1 in column `j`. -/
def oneHotRow (V j : ℕ) : List ℝ :=
  (List.range V).map (fun c => if c = j then (1 : ℝ) else 0)

/-- One iteration of the `generate_text` loop on the state
`(generated, pfx)`: vectorize the conditioning window, query the model, sample
the next index (with uniform draw `u`), map it back to a character via
`indices_char`, append it to `generated` and slide the window
(`prefix = prefix[1:] + next_char`). -/
noncomputable def gen_step (W : ℕ) (vocab : List Char)
    (model : List (List ℝ) → List ℝ) (temperature u : ℝ)
    (st : List Char × List Char) : Option (List Char × List Char) := do
  let x ← vectorize W vocab st.2
  let preds := model x
  let next_index ← sample_one u preds temperature
  let next_char ← indices_char vocab next_index
  return (st.1 ++ [next_char], st.2.drop 1 ++ [next_char])

/-- The `for i in range(length)` loop of `generate_text`, with the uniform
draw consumed at iteration `i` supplied by `us i`. -/
noncomputable def gen_steps (W : ℕ) (vocab : List Char)
    (model : List (List ℝ) → List ℝ) (us : ℕ → ℝ) (temperature : ℝ)
    (len : ℕ) (st : List Char × List Char) :
    Option (List Char × List Char) :=
  (List.range len).foldlM
    (fun s i => gen_step W vocab model temperature (us i) s) st

/-- Embedding of `generate_text(model, seed_string, length, temperature)`:
start from `generated = prefix = seed_string`, run the loop `len` times and
return `generated`. The globals `max_length`, `char_indices`, `indices_char`
are passed as the parameters `W` and `vocab`. -/
noncomputable def generate_text (W : ℕ) (vocab : List Char)
    (model : List (List ℝ) → List ℝ) (us : ℕ → ℝ) (seed_string : List Char)
    (len : ℕ) (temperature : ℝ) : Option (List Char) :=
  (gen_steps W vocab model us temperature len (seed_string, seed_string)).map
    Prod.fst

/-- The stub model of the spec's concrete scenario: it always predicts the
fixed distribution `[0.1, 0.1, 0.8]`, whatever its input. -/
noncomputable def stubModel (_x : List (List ℝ)) : List ℝ :=
  [(0.1 : ℝ), 0.1, 0.8]

/-- `onehot_encode(dim, label) = np.eye(dim)[label]` from the embeddings
notebook: row `label` of the `dim` by `dim` identity matrix. -/
def onehot_encode (dim label : ℕ) : List ℝ :=
  (List.range dim).map (fun j => if j = label then (1 : ℝ) else 0)

/-- `np.dot(v, M)` for a one-dimensional `v` and a two-dimensional `M` (a list
of rows): entry `c` of the result is the sum over `i` of `v[i] * M[i][c]`. -/
noncomputable def np_dot (v : List ℝ) (M : List (List ℝ)) : List ℝ :=
  (List.range ((M.headD []).length)).map
    (fun c => ∑ i ∈ Finset.range v.length, v.getD i 0 * ((M.getD i []).getD c 0))

/-! ### Sampler lemmas -/

theorem npLogDivExp_pos {x : ℝ} (t : ℝ) (hx : 0 < x) :
    npLogDivExp t x = some (Real.exp (Real.log x / t)) := by
  rw [npLogDivExp, if_neg (not_lt.mpr hx.le), if_neg hx.ne']

theorem npLogDivExp_pos_rpow {x : ℝ} (t : ℝ) (hx : 0 < x) :
    npLogDivExp t x = some (x ^ (1 / t)) := by
  rw [npLogDivExp_pos t hx, Real.rpow_def_of_pos hx, mul_one_div]

theorem npLogDivExp_isSome {x : ℝ} (t : ℝ) (hx : 0 ≤ x) :
    (npLogDivExp t x).isSome = true := by
  rw [npLogDivExp, if_neg (not_lt.mpr hx)]
  rcases eq_or_ne x 0 with h | h
  · rw [if_pos h]; rfl
  · rw [if_neg h]; rfl

theorem mapLogExp_pos {preds : List ℝ} (t : ℝ) (h : ∀ p ∈ preds, 0 < p) :
    mapLogExp t preds = some (preds.map (fun p => p ^ (1 / t))) := by
  induction preds with
  | nil => rfl
  | cons p ps ih =>
      show (npLogDivExp t p).bind _ = _
      rw [npLogDivExp_pos_rpow t (h p (List.mem_cons_self p ps)),
        Option.some_bind, ih (fun q hq => h q (List.mem_cons_of_mem p hq))]
      rfl

theorem mapLogExp_isSome {preds : List ℝ} (t : ℝ) (h : ∀ p ∈ preds, 0 ≤ p) :
    (mapLogExp t preds).isSome = true := by
  induction preds with
  | nil => rfl
  | cons p ps ih =>
      have h1 := npLogDivExp_isSome t (h p (List.mem_cons_self p ps))
      have h2 := ih (fun q hq => h q (List.mem_cons_of_mem p hq))
      obtain ⟨y, hy⟩ := Option.isSome_iff_exists.mp h1
      obtain ⟨ys, hys⟩ := Option.isSome_iff_exists.mp h2
      show ((npLogDivExp t p).bind _).isSome = true
      rw [hy, Option.some_bind, hys]
      rfl

theorem list_sum_map_div (l : List ℝ) (s : ℝ) :
    (l.map (fun e => e / s)).sum = l.sum / s := by
  induction l with
  | nil => simp
  | cons a l ih => simp [ih, add_div]

theorem sample_one_weights_pos {preds : List ℝ} (t : ℝ)
    (h : ∀ p ∈ preds, 0 < p) :
    sample_one_weights preds t = some (rpowWeights preds t) := by
  rw [sample_one_weights, mapLogExp_pos t h]
  rfl

theorem rpowWeights_eq_exp_form {preds : List ℝ} (t : ℝ)
    (h : ∀ p ∈ preds, 0 < p) :
    rpowWeights preds t =
      (preds.map (fun p => Real.exp (Real.log p / t))).map
        (fun e => e / (preds.map (fun p => Real.exp (Real.log p / t))).sum) := by
  have hmap : preds.map (fun p => p ^ (1 / t)) =
      preds.map (fun p => Real.exp (Real.log p / t)) :=
    List.map_congr_left (fun p hp => by
      rw [Real.rpow_def_of_pos (h p hp), mul_one_div])
  rw [rpowWeights, hmap]

theorem rpowWeights_nonneg {preds : List ℝ} (t : ℝ) (h : ∀ p ∈ preds, 0 < p) :
    ∀ w ∈ rpowWeights preds t, 0 ≤ w := by
  intro w hw
  rw [rpowWeights] at hw
  obtain ⟨e, he, rfl⟩ := List.mem_map.mp hw
  obtain ⟨p, hp, rfl⟩ := List.mem_map.mp he
  have hS : 0 ≤ (preds.map (fun p => p ^ (1 / t))).sum := by
    apply List.sum_nonneg
    intro x hx
    obtain ⟨q, hq, rfl⟩ := List.mem_map.mp hx
    exact (Real.rpow_pos_of_pos (h q hq) _).le
  exact div_nonneg (Real.rpow_pos_of_pos (h p hp) _).le hS

theorem rpowWeights_sum {preds : List ℝ} (t : ℝ) (hne : preds ≠ [])
    (h : ∀ p ∈ preds, 0 < p) : (rpowWeights preds t).sum = 1 := by
  rw [rpowWeights, list_sum_map_div]
  have hS : 0 < (preds.map (fun p => p ^ (1 / t))).sum := by
    apply List.sum_pos
    · intro x hx
      obtain ⟨q, hq, rfl⟩ := List.mem_map.mp hx
      exact Real.rpow_pos_of_pos (h q hq) _
    · simpa using hne
  exact div_self hS.ne'

theorem rpowWeights_length (preds : List ℝ) (t : ℝ) :
    (rpowWeights preds t).length = preds.length := by
  simp [rpowWeights]

theorem categorical_draw_lt :
    ∀ (w : List ℝ) (u : ℝ), 0 ≤ u → u < w.sum → (∀ x ∈ w, 0 ≤ x) →
      categorical_draw u w < w.length := by
  intro w
  induction w with
  | nil =>
      intro u hu husum hw
      rw [List.sum_nil] at husum
      exact absurd (hu.trans_lt husum) (lt_irrefl 0)
  | cons p rest ih =>
      intro u hu husum hw
      rw [categorical_draw]
      by_cases hcase : u < p
      · rw [if_pos hcase]
        simp
      · rw [if_neg hcase, List.length_cons]
        have h1 : 0 ≤ u - p := sub_nonneg.mpr (not_lt.mp hcase)
        have h2 : u - p < rest.sum := by
          rw [List.sum_cons] at husum
          linarith
        exact Nat.succ_lt_succ
          (ih (u - p) h1 h2 (fun x hx => hw x (List.mem_cons_of_mem p hx)))

theorem foldr_max_replicate (n : ℕ) :
    (List.replicate n (0 : ℕ)).foldr max 0 = 0 := by
  induction n with
  | zero => rfl
  | succ n ih => simp [List.replicate_succ, ih]

theorem foldr_max_oneHot :
    ∀ (d n : ℕ), d < n → (oneHotCounts n d).foldr max 0 = 1 := by
  intro d
  induction d with
  | zero =>
      intro n hn
      match n, hn with
      | m + 1, _ =>
        show (1 :: List.replicate m 0).foldr max 0 = 1
        rw [List.foldr_cons, foldr_max_replicate]
        decide
  | succ d ih =>
      intro n hn
      match n, hn with
      | m + 1, hn =>
        show (0 :: oneHotCounts m d).foldr max 0 = 1
        rw [List.foldr_cons, ih m (Nat.lt_of_succ_lt_succ hn)]
        decide

theorem np_argmax_oneHot :
    ∀ (d n : ℕ), d < n → np_argmax (oneHotCounts n d) = d := by
  intro d
  induction d with
  | zero =>
      intro n hn
      match n, hn with
      | m + 1, _ =>
        rw [np_argmax, foldr_max_oneHot 0 (m + 1) (Nat.succ_pos m)]
        show List.indexOf 1 (1 :: List.replicate m 0) = 0
        exact List.indexOf_cons_self 1 (List.replicate m 0)
  | succ d ih =>
      intro n hn
      match n, hn with
      | m + 1, hn =>
        have hd := Nat.lt_of_succ_lt_succ hn
        have hprev := ih m hd
        rw [np_argmax, foldr_max_oneHot d m hd] at hprev
        rw [np_argmax, foldr_max_oneHot (d + 1) (m + 1) hn]
        show List.indexOf 1 (0 :: oneHotCounts m d) = d + 1
        rw [List.indexOf_cons_ne _ (by decide), hprev]

theorem sample_one_eq_draw {preds : List ℝ} {t u : ℝ} (hne : preds ≠ [])
    (hpos : ∀ p ∈ preds, 0 < p) (hu0 : 0 ≤ u) (hu1 : u < 1) :
    sample_one u preds t = some (categorical_draw u (rpowWeights preds t)) := by
  rw [sample_one, sample_one_weights_pos t hpos]
  show some (np_argmax (np_multinomial_one u (rpowWeights preds t))) = _
  congr 1
  rw [np_multinomial_one]
  apply np_argmax_oneHot
  exact categorical_draw_lt _ u hu0
    (by rw [rpowWeights_sum t hne hpos]; exact hu1)
    (rpowWeights_nonneg t hpos)

theorem npLogDivExp_one {x : ℝ} (hx : 0 < x) : npLogDivExp 1 x = some x := by
  rw [npLogDivExp_pos 1 hx, div_one, Real.exp_log hx]

theorem mapLogExp_nil (t : ℝ) : mapLogExp t [] = some [] := rfl

theorem mapLogExp_cons {t p y : ℝ} {ps ys : List ℝ}
    (h1 : npLogDivExp t p = some y) (h2 : mapLogExp t ps = some ys) :
    mapLogExp t (p :: ps) = some (y :: ys) := by
  show (npLogDivExp t p).bind _ = _
  rw [h1, Option.some_bind, h2]
  rfl

theorem sample_one_eval_half : sample_one 0 [(1 : ℝ)/2, 1/2] 1 = some 0 := by
  have hhalf : npLogDivExp 1 ((1 : ℝ)/2) = some ((1 : ℝ)/2) :=
    npLogDivExp_one (by norm_num)
  have h1 : mapLogExp 1 [(1 : ℝ)/2, 1/2] = some [(1 : ℝ)/2, 1/2] :=
    mapLogExp_cons hhalf (mapLogExp_cons hhalf (mapLogExp_nil 1))
  have h2 : sample_one_weights [(1 : ℝ)/2, 1/2] 1 = some [(1 : ℝ)/2, 1/2] := by
    rw [sample_one_weights, h1]
    norm_num
  rw [sample_one, h2]
  show some (np_argmax (np_multinomial_one 0 [(1 : ℝ)/2, 1/2])) = some 0
  have h3 : categorical_draw 0 [(1 : ℝ)/2, 1/2] = 0 := by
    rw [categorical_draw, if_pos (by norm_num)]
  rw [np_multinomial_one, List.length_cons, List.length_cons, List.length_nil,
    h3]
  decide

/-- C1: for a probability vector with strictly positive entries and a strictly
positive temperature, the categorical weights `sample_one` draws from are the
ln-then-divide-then-exp-then-renormalize of the input, equivalently the
entries raised to `1 / temperature` and renormalized; the function performs
exactly one categorical draw from that distribution and returns the index of
the selected category. -/
theorem sample_one_temperature_rescaled_categorical (preds : List ℝ)
    (temperature u : ℝ) (hne : preds ≠ []) (hpos : ∀ p ∈ preds, 0 < p)
    (ht : 0 < temperature) (hu0 : 0 ≤ u) (hu1 : u < 1) :
    sample_one_weights preds temperature = some (rpowWeights preds temperature) ∧
    rpowWeights preds temperature =
      (preds.map (fun p => Real.exp (Real.log p / temperature))).map
        (fun e => e /
          (preds.map (fun p => Real.exp (Real.log p / temperature))).sum) ∧
    sample_one u preds temperature =
      some (categorical_draw u (rpowWeights preds temperature)) :=
  ⟨sample_one_weights_pos temperature hpos,
   rpowWeights_eq_exp_form temperature hpos,
   sample_one_eq_draw hne hpos hu0 hu1⟩

/-- Witness for C1 at `preds = [1/2, 1/2]`, `temperature = 1`, `u = 0`. -/
theorem sample_one_temperature_rescaled_categorical_witness :
    ([(1 : ℝ)/2, 1/2] ≠ []) ∧
    (sample_one_weights [(1 : ℝ)/2, 1/2] 1 =
        some (rpowWeights [(1 : ℝ)/2, 1/2] 1) ∧
     rpowWeights [(1 : ℝ)/2, 1/2] 1 =
       ([(1 : ℝ)/2, 1/2].map (fun p => Real.exp (Real.log p / 1))).map
         (fun e => e /
           ([(1 : ℝ)/2, 1/2].map (fun p => Real.exp (Real.log p / 1))).sum) ∧
     sample_one 0 [(1 : ℝ)/2, 1/2] 1 =
       some (categorical_draw 0 (rpowWeights [(1 : ℝ)/2, 1/2] 1))) :=
  ⟨by simp,
   sample_one_temperature_rescaled_categorical [(1 : ℝ)/2, 1/2] 1 0 (by simp)
     (by norm_num) one_pos (le_refl 0) (by norm_num)⟩

/-- C2 counterexample: the claim says `sample_one` must fail with
`InvalidProbabilityError` on a probability vector with a zero entry; the code
contains no such check (and no such error class): on `[0.5, 0, 0.5]` with
temperature 1 the zero entry flows through `log 0 = -inf`, `exp(-inf) = 0`,
the remaining mass renormalizes to `[0.5, 0, 0.5]` and the draw succeeds. -/
theorem sample_one_zero_entry_succeeds :
    sample_one 0 [(1 : ℝ)/2, 0, 1/2] 1 = some 0 := by
  have hz : npLogDivExp 1 (0 : ℝ) = some 0 := by
    rw [npLogDivExp, if_neg (lt_irrefl 0), if_pos rfl]
  have hhalf : npLogDivExp 1 ((1 : ℝ)/2) = some ((1 : ℝ)/2) :=
    npLogDivExp_one (by norm_num)
  have h1 : mapLogExp 1 [(1 : ℝ)/2, 0, 1/2] = some [(1 : ℝ)/2, 0, 1/2] :=
    mapLogExp_cons hhalf
      (mapLogExp_cons hz (mapLogExp_cons hhalf (mapLogExp_nil 1)))
  have h2 : sample_one_weights [(1 : ℝ)/2, 0, 1/2] 1 =
      some [(1 : ℝ)/2, 0, 1/2] := by
    rw [sample_one_weights, h1]
    norm_num
  rw [sample_one, h2]
  show some (np_argmax (np_multinomial_one 0 [(1 : ℝ)/2, 0, 1/2])) = some 0
  have h3 : categorical_draw 0 [(1 : ℝ)/2, 0, 1/2] = 0 := by
    rw [categorical_draw, if_pos (by norm_num)]
  rw [np_multinomial_one, List.length_cons, List.length_cons, List.length_cons,
    List.length_nil, h3]
  decide

/-- C2 amended: `sample_one` performs no input validation and raises no
`InvalidProbabilityError` (no such error exists in the code). On any vector of
nonnegative entries at least one of which is positive, with a positive
temperature (the regime where the numpy pipeline produces finite, valid
`pvals`), the sampling succeeds. -/
theorem sample_one_no_input_validation (preds : List ℝ) (temperature u : ℝ)
    (hnn : ∀ p ∈ preds, 0 ≤ p) (hsome : ∃ p ∈ preds, 0 < p)
    (ht : 0 < temperature) :
    (sample_one u preds temperature).isSome = true := by
  obtain ⟨ys, hys⟩ :=
    Option.isSome_iff_exists.mp (mapLogExp_isSome temperature hnn)
  rw [sample_one, sample_one_weights, hys]
  rfl

/-- Witness for the amended C2 at the claim's own instance
`[0.5, 0, 0.5]`, `temperature = 1`. -/
theorem sample_one_no_input_validation_witness :
    (∀ p ∈ [(1 : ℝ)/2, 0, 1/2], 0 ≤ p) ∧
    (sample_one 0 [(1 : ℝ)/2, 0, 1/2] 1).isSome = true :=
  ⟨by norm_num,
   sample_one_no_input_validation [(1 : ℝ)/2, 0, 1/2] 1 0 (by norm_num)
     ⟨1/2, by norm_num⟩ one_pos⟩

/-- C9: whenever `sample_one` succeeds on a vector of strictly positive
entries, the returned index is in `[0, n)`; consequently the reverse lookup
`indices_char[next_index]` in the generation loop cannot fail when the model
output has the vocabulary's length. -/
theorem sample_one_index_lt_length (preds : List ℝ) (vocab : List Char)
    (temperature u : ℝ) (i : ℕ) (hne : preds ≠ [])
    (hpos : ∀ p ∈ preds, 0 < p) (ht : 0 < temperature) (hu0 : 0 ≤ u)
    (hu1 : u < 1) (hs : sample_one u preds temperature = some i) :
    i < preds.length ∧
    (preds.length = vocab.length → (indices_char vocab i).isSome = true) := by
  have hdraw := sample_one_eq_draw (t := temperature) hne hpos hu0 hu1
  rw [hs] at hdraw
  have hi : i = categorical_draw u (rpowWeights preds temperature) :=
    Option.some_injective _ hdraw
  have hlt : categorical_draw u (rpowWeights preds temperature) <
      (rpowWeights preds temperature).length :=
    categorical_draw_lt _ u hu0
      (by rw [rpowWeights_sum temperature hne hpos]; exact hu1)
      (rpowWeights_nonneg temperature hpos)
  rw [rpowWeights_length] at hlt
  refine ⟨hi ▸ hlt, fun hlen => ?_⟩
  rw [indices_char, List.get?_eq_get (by rw [← hlen]; exact hi ▸ hlt)]
  rfl

/-- Witness for C9 at `preds = [1/2, 1/2]`, `vocab = ['a','b']`,
`temperature = 1`, `u = 0`, where the sample is index 0. -/
theorem sample_one_index_lt_length_witness :
    sample_one 0 [(1 : ℝ)/2, 1/2] 1 = some 0 ∧
    (0 < ([(1 : ℝ)/2, 1/2]).length ∧
     (([(1 : ℝ)/2, 1/2]).length = (['a', 'b']).length →
       (indices_char ['a', 'b'] 0).isSome = true)) :=
  ⟨sample_one_eval_half,
   sample_one_index_lt_length [(1 : ℝ)/2, 1/2] ['a', 'b'] 1 0 0 (by simp)
     (by norm_num) one_pos (le_refl 0) (by norm_num) sample_one_eval_half⟩

/-! ### Vectorizer lemmas -/

theorem oneHotRow_length (V j : ℕ) : (oneHotRow V j).length = V := by
  simp [oneHotRow]

theorem replicate_set_oneHotRow {V c : ℕ} (hc : c < V) :
    (List.replicate V (0 : ℝ)).set c 1 = oneHotRow V c := by
  apply List.ext_getElem
  · simp [oneHotRow]
  · intro n h1 h2
    simp only [List.getElem_set, List.getElem_replicate, oneHotRow,
      List.getElem_map, List.getElem_range]
    by_cases h : c = n
    · rw [if_pos h, if_pos h.symm]
    · rw [if_neg h, if_neg (fun hh => h hh.symm)]

theorem np_set_row_nat (x : List (List ℝ)) (rn c : ℕ) (v : ℝ)
    (hrn : rn < x.length) (hc : c < (x.getD rn []).length) :
    np_set_row x (rn : ℤ) c v = some (x.set rn ((x.getD rn []).set c v)) := by
  simp only [np_set_row]
  rw [if_neg (by omega : ¬ ((rn : ℤ) < 0))]
  rw [if_pos ⟨Int.natCast_nonneg rn, by exact_mod_cast hrn⟩]
  rw [Int.toNat_natCast, if_pos hc]

theorem np_set_row_spec {V : ℕ} (x : List (List ℝ)) (r : ℤ) (c : ℕ) (v : ℝ)
    (hrows : ∀ row ∈ x, row.length = V)
    (hlo : -(x.length : ℤ) ≤ r) (hhi : r < (x.length : ℤ)) (hc : c < V) :
    ∃ y, np_set_row x r c v = some y ∧ y.length = x.length ∧
      ∀ row ∈ y, row.length = V := by
  simp only [np_set_row]
  set r' : ℤ := if r < 0 then r + x.length else r with hr'
  have h1 : 0 ≤ r' ∧ r' < (x.length : ℤ) := by
    rw [hr']; split <;> omega
  rw [if_pos h1]
  have hrn : r'.toNat < x.length := by omega
  have hrow : (x.getD r'.toNat []).length = V :=
    hrows _ (by rw [List.getD_eq_getElem _ _ hrn]; exact List.getElem_mem hrn)
  rw [if_pos (by rw [hrow]; exact hc)]
  refine ⟨_, rfl, List.length_set .., ?_⟩
  intro row hmem
  rcases List.mem_or_eq_of_mem_set hmem with h | h
  · exact hrows _ h
  · rw [h, List.length_set]
    exact hrow

theorem vec_loop_isSome (vocab : List Char) (shift : ℤ) :
    ∀ (cs : List Char) (t0 : ℕ) (x : List (List ℝ)),
      (∀ ch ∈ cs, ch ∈ vocab) →
      (∀ row ∈ x, row.length = vocab.length) →
      (-(x.length : ℤ) ≤ (t0 : ℤ) + shift) →
      ((t0 : ℤ) + cs.length + shift ≤ (x.length : ℤ)) →
      (vec_loop vocab shift t0 cs x).isSome = true := by
  intro cs
  induction cs with
  | nil => intro t0 x _ _ _ _; rfl
  | cons ch cs ih =>
      intro t0 x hin hrows hlo hhi
      have hchv : ch ∈ vocab := hin ch (List.mem_cons_self ch cs)
      have hci : char_indices vocab ch = some (List.indexOf ch vocab) := by
        rw [char_indices, if_pos hchv]
      have hcol : List.indexOf ch vocab < vocab.length :=
        List.indexOf_lt_length.mpr hchv
      have hhi2 : (t0 : ℤ) + shift < (x.length : ℤ) := by
        have : ((cs.length + 1 : ℕ) : ℤ) = (cs.length : ℤ) + 1 := by push_cast; ring
        rw [List.length_cons, this] at hhi
        omega
      obtain ⟨y, hy, hylen, hyrows⟩ :=
        np_set_row_spec x ((t0 : ℤ) + shift) (List.indexOf ch vocab) 1 hrows hlo
          hhi2 hcol
      show ((char_indices vocab ch).bind _).isSome = true
      rw [hci, Option.some_bind, hy, Option.bind_eq_bind, Option.some_bind]
      apply ih (t0 + 1) y (fun c hc => hin c (List.mem_cons_of_mem ch hc)) hyrows
      · rw [hylen]; push_cast; omega
      · rw [hylen]
        rw [List.length_cons] at hhi
        push_cast at hhi ⊢
        omega

theorem vec_loop_closed (vocab : List Char) (s : ℕ) :
    ∀ (cs : List Char) (t0 : ℕ) (x : List (List ℝ)),
      (∀ ch ∈ cs, ch ∈ vocab) →
      (∀ row ∈ x, row.length = vocab.length) →
      t0 + s + cs.length ≤ x.length →
      (∀ i, t0 + s ≤ i → (hi : i < x.length) → x[i] = List.replicate vocab.length 0) →
      vec_loop vocab (s : ℤ) t0 cs x =
        some (x.take (t0 + s) ++
          cs.map (fun ch => oneHotRow vocab.length (List.indexOf ch vocab)) ++
          x.drop (t0 + s + cs.length)) := by
  intro cs
  induction cs with
  | nil =>
      intro t0 x _ _ _ _
      show some x = _
      simp [List.take_append_drop]
  | cons ch cs ih =>
      intro t0 x hin hrows hlen hzero
      have hchv : ch ∈ vocab := hin ch (List.mem_cons_self ch cs)
      have hci : char_indices vocab ch = some (List.indexOf ch vocab) := by
        rw [char_indices, if_pos hchv]
      have hcol : List.indexOf ch vocab < vocab.length :=
        List.indexOf_lt_length.mpr hchv
      have hrn : t0 + s < x.length := by
        rw [List.length_cons] at hlen
        omega
      have hrowval : x.getD (t0 + s) [] = List.replicate vocab.length 0 := by
        rw [List.getD_eq_getElem _ _ hrn]
        exact hzero (t0 + s) (le_refl _) hrn
      have hset : np_set_row x ((t0 : ℤ) + (s : ℤ)) (List.indexOf ch vocab) 1 =
          some (x.set (t0 + s) (oneHotRow vocab.length (List.indexOf ch vocab))) := by
        have hcast : ((t0 : ℤ) + (s : ℤ)) = ((t0 + s : ℕ) : ℤ) := by push_cast; ring
        rw [hcast, np_set_row_nat x (t0 + s) _ 1 hrn
          (by rw [hrowval, List.length_replicate]; exact hcol)]
        rw [hrowval, replicate_set_oneHotRow hcol]
      show ((char_indices vocab ch).bind _) = _
      rw [hci, Option.some_bind, hset, Option.bind_eq_bind, Option.some_bind]
      have h1 : ∀ c ∈ cs, c ∈ vocab := fun c hc => hin c (List.mem_cons_of_mem ch hc)
      have h2 : ∀ row ∈ x.set (t0 + s) (oneHotRow vocab.length (List.indexOf ch vocab)),
          row.length = vocab.length := by
        intro row hrow
        rcases List.mem_or_eq_of_mem_set hrow with h | h
        · exact hrows _ h
        · rw [h, oneHotRow_length]
      have h3 : (t0 + 1) + s + cs.length ≤
          (x.set (t0 + s) (oneHotRow vocab.length (List.indexOf ch vocab))).length := by
        rw [List.length_set]
        rw [List.length_cons] at hlen
        omega
      have h4 : ∀ i, (t0 + 1) + s ≤ i →
          (hi : i < (x.set (t0 + s) (oneHotRow vocab.length (List.indexOf ch vocab))).length) →
          (x.set (t0 + s) (oneHotRow vocab.length (List.indexOf ch vocab)))[i] =
            List.replicate vocab.length 0 := by
        intro i hige hi
        rw [List.getElem_set_ne (by omega)]
        exact hzero i (by omega) (by rw [List.length_set] at hi; exact hi)
      rw [ih (t0 + 1) (x.set (t0 + s) (oneHotRow vocab.length (List.indexOf ch vocab))) h1 h2 h3 h4]
      have htake : (x.set (t0 + s) (oneHotRow vocab.length (List.indexOf ch vocab))).take (t0 + s + 1) =
          x.take (t0 + s) ++ [oneHotRow vocab.length (List.indexOf ch vocab)] := by
        rw [List.set_eq_take_cons_drop _ hrn, List.take_append_eq_append_take]
        rw [List.take_all_of_le (by rw [List.length_take]; omega)]
        rw [List.length_take]
        have he : t0 + s + 1 - (t0 + s) ⊓ x.length = 1 := by omega
        rw [he]
        rfl
      have hdrop : (x.set (t0 + s) (oneHotRow vocab.length (List.indexOf ch vocab))).drop (t0 + s + 1 + cs.length) =
          x.drop (t0 + s + 1 + cs.length) := by
        rw [List.set_eq_take_cons_drop _ hrn, List.drop_append_eq_append_drop]
        rw [List.drop_eq_nil_of_le (by rw [List.length_take]; omega)]
        rw [List.length_take, List.nil_append]
        have he : t0 + s + 1 + cs.length - (t0 + s) ⊓ x.length = cs.length + 1 := by omega
        rw [he, List.drop_succ_cons, List.drop_drop]
      have e1 : t0 + 1 + s = t0 + s + 1 := by omega
      rw [e1, htake]
      have e2 : t0 + s + 1 + cs.length = t0 + s + (ch :: cs).length := by
        rw [List.length_cons]; omega
      rw [← e2, hdrop]
      congr 1
      simp [List.append_assoc]

/-- C3 counterexample: the claim says vectorizing a window of length 5 with
`W = 3` must fail with `WindowTooLongError`; the code has no such check (and
no such error class anywhere): the negative row indices `t + shift` wrap
around numpy-style and the call succeeds, silently overwriting rows. -/
theorem vectorize_window_too_long_succeeds :
    vectorize 3 ['a', 'b', 'c'] ['a', 'a', 'a', 'a', 'a'] =
      some [[1, 0, 0], [1, 0, 0], [1, 0, 0]] := rfl

/-- C3 amended: the vectorization performs no window-length check: whenever
the window has length at most `2W` (so every wrapped row index stays in
range) and its symbols are in the vocabulary, it succeeds, writing rows with
numpy negative-index wraparound instead of failing. -/
theorem vectorize_no_window_length_check (W : ℕ) (vocab pfx : List Char)
    (hlen : pfx.length ≤ 2 * W) (hin : ∀ ch ∈ pfx, ch ∈ vocab) :
    (vectorize W vocab pfx).isSome = true := by
  rw [vectorize]
  apply vec_loop_isSome vocab ((W : ℤ) - pfx.length) pfx 0
    (zeroTensor W vocab.length) hin
  · intro row hrow
    rw [List.eq_of_mem_replicate hrow]
    exact List.length_replicate _ _
  · rw [zeroTensor, List.length_replicate]
    push_cast
    omega
  · rw [zeroTensor, List.length_replicate]
    push_cast
    omega

/-- Witness for the amended C3 at the claim's own instance: a window of
length 5 with `W = 3`. -/
theorem vectorize_no_window_length_check_witness :
    (List.length ['a', 'a', 'a', 'a', 'a'] ≤ 2 * 3) ∧
    (vectorize 3 ['a', 'b', 'c'] ['a', 'a', 'a', 'a', 'a']).isSome = true :=
  ⟨by decide,
   vectorize_no_window_length_check 3 ['a', 'b', 'c'] ['a', 'a', 'a', 'a', 'a']
     (by decide) (by decide)⟩

/-- C4: for every window of length `k ≤ W` over vocabulary symbols, the
vectorization returns the tensor whose first `W - k` rows are zero rows and
whose last `k` rows are the one-hot rows of the window symbols in order (row
`t + shift` carries its 1 at the column of the index of symbol `t`, with
`shift = W - k`); the tensor has exactly `W` rows, so exactly `k` one-hot
rows, right-aligned, and `W - k` all-zero rows. -/
theorem vectorize_shape_invariant (W : ℕ) (vocab pfx : List Char)
    (hk : pfx.length ≤ W) (hin : ∀ ch ∈ pfx, ch ∈ vocab) :
    vectorize W vocab pfx =
      some (List.replicate (W - pfx.length) (List.replicate vocab.length (0 : ℝ)) ++
        pfx.map (fun ch => oneHotRow vocab.length (List.indexOf ch vocab))) ∧
    (List.replicate (W - pfx.length) (List.replicate vocab.length (0 : ℝ)) ++
        pfx.map (fun ch => oneHotRow vocab.length (List.indexOf ch vocab))).length = W := by
  constructor
  · rw [vectorize]
    have hshift : ((W : ℤ) - (pfx.length : ℤ)) = ((W - pfx.length : ℕ) : ℤ) := by
      omega
    rw [hshift]
    have hrows : ∀ row ∈ zeroTensor W vocab.length, row.length = vocab.length := by
      intro row hrow
      rw [List.eq_of_mem_replicate hrow]
      exact List.length_replicate _ _
    have hlen : 0 + (W - pfx.length) + pfx.length ≤
        (zeroTensor W vocab.length).length := by
      rw [zeroTensor, List.length_replicate]
      omega
    have hz : ∀ i, 0 + (W - pfx.length) ≤ i →
        (hi : i < (zeroTensor W vocab.length).length) →
        (zeroTensor W vocab.length)[i] = List.replicate vocab.length 0 := by
      intro i _ hi
      simp [zeroTensor]
    rw [vec_loop_closed vocab (W - pfx.length) pfx 0 (zeroTensor W vocab.length)
      hin hrows hlen hz]
    rw [zeroTensor, List.take_replicate, List.drop_replicate]
    have e1 : (0 + (W - pfx.length)) ⊓ W = W - pfx.length := by omega
    have e2 : W - (0 + (W - pfx.length) + pfx.length) = 0 := by omega
    rw [e1, e2]
    simp
  · simp only [List.length_append, List.length_replicate, List.length_map]
    omega

/-- Witness for C4 at `W = 2`, `vocab = ['a','b']`, window `['b']`. -/
theorem vectorize_shape_invariant_witness :
    (List.length ['b'] ≤ 2) ∧
    (vectorize 2 ['a', 'b'] ['b'] =
      some (List.replicate (2 - List.length ['b'])
          (List.replicate (List.length ['a', 'b']) (0 : ℝ)) ++
        ['b'].map (fun ch =>
          oneHotRow (List.length ['a', 'b']) (List.indexOf ch ['a', 'b']))) ∧
     (List.replicate (2 - List.length ['b'])
          (List.replicate (List.length ['a', 'b']) (0 : ℝ)) ++
        ['b'].map (fun ch =>
          oneHotRow (List.length ['a', 'b']) (List.indexOf ch ['a', 'b']))).length = 2) :=
  ⟨by decide,
   vectorize_shape_invariant 2 ['a', 'b'] ['b'] (by decide) (by decide)⟩

/-! ### Generation loop lemmas -/

theorem gen_steps_zero (W : ℕ) (vocab : List Char)
    (model : List (List ℝ) → List ℝ) (us : ℕ → ℝ) (t : ℝ)
    (st : List Char × List Char) :
    gen_steps W vocab model us t 0 st = some st := rfl

theorem gen_steps_succ (W : ℕ) (vocab : List Char)
    (model : List (List ℝ) → List ℝ) (us : ℕ → ℝ) (t : ℝ) (n : ℕ)
    (st : List Char × List Char) :
    gen_steps W vocab model us t (n + 1) st =
      (gen_steps W vocab model us t n st).bind
        (gen_step W vocab model t (us n)) := by
  rw [gen_steps, gen_steps, List.range_succ, List.foldlM_append]
  cases h : (List.range n).foldlM
      (fun s i => gen_step W vocab model t (us i) s) st with
  | none => rfl
  | some st' =>
      show ([n].foldlM (fun s i => gen_step W vocab model t (us i) s) st'
          : Option (List Char × List Char)) =
        gen_step W vocab model t (us n) st'
      simp [List.foldlM_cons, List.foldlM_nil]

theorem gen_step_shape {W : ℕ} {vocab : List Char}
    {model : List (List ℝ) → List ℝ} {t u : ℝ} {g p : List Char}
    {st' : List Char × List Char}
    (h : gen_step W vocab model t u (g, p) = some st') :
    ∃ c, st' = (g ++ [c], p.drop 1 ++ [c]) := by
  have h' : (vectorize W vocab p).bind (fun x =>
      (sample_one u (model x) t).bind (fun i =>
        (indices_char vocab i).bind (fun c =>
          some (g ++ [c], p.drop 1 ++ [c])))) = some st' := h
  obtain ⟨x, hx, h'⟩ := Option.bind_eq_some.mp h'
  obtain ⟨i, hi, h'⟩ := Option.bind_eq_some.mp h'
  obtain ⟨c, hc, h'⟩ := Option.bind_eq_some.mp h'
  exact ⟨c, (Option.some_inj.mp h').symm⟩

theorem gen_steps_generated (W : ℕ) (vocab : List Char)
    (model : List (List ℝ) → List ℝ) (us : ℕ → ℝ) (t : ℝ) :
    ∀ (n : ℕ) (st : List Char × List Char) (g p : List Char),
      gen_steps W vocab model us t n st = some (g, p) →
      g.length = st.1.length + n ∧ g.take st.1.length = st.1 := by
  intro n
  induction n with
  | zero =>
      intro st g p h
      rw [gen_steps_zero] at h
      obtain rfl : st = (g, p) := Option.some_inj.mp h
      exact ⟨rfl, List.take_length _⟩
  | succ n ih =>
      intro st g p h
      rw [gen_steps_succ] at h
      obtain ⟨⟨g0, p0⟩, h0, hstep⟩ := Option.bind_eq_some.mp h
      obtain ⟨hlen, htake⟩ := ih st g0 p0 h0
      obtain ⟨c, hc⟩ := gen_step_shape hstep
      have hg : g = g0 ++ [c] := congrArg Prod.fst hc
      constructor
      · rw [hg, List.length_append, hlen, List.length_cons, List.length_nil]
        omega
      · rw [hg, List.take_append_of_le_length (by omega), htake]

theorem gen_steps_window (W : ℕ) (vocab : List Char)
    (model : List (List ℝ) → List ℝ) (us : ℕ → ℝ) (t : ℝ) :
    ∀ (n : ℕ) (st : List Char × List Char) (g p : List Char),
      gen_steps W vocab model us t n st = some (g, p) →
      (∃ pre, st.1 = pre ++ st.2) →
      p.length = max st.2.length (min n 1) ∧ ∃ pre, g = pre ++ p := by
  intro n
  induction n with
  | zero =>
      intro st g p h hsuf
      rw [gen_steps_zero] at h
      obtain rfl : st = (g, p) := Option.some_inj.mp h
      exact ⟨by simp, hsuf⟩
  | succ n ih =>
      intro st g p h hsuf
      rw [gen_steps_succ] at h
      obtain ⟨⟨g0, p0⟩, h0, hstep⟩ := Option.bind_eq_some.mp h
      obtain ⟨hplen, pre0, hpre0⟩ := ih st g0 p0 h0 hsuf
      obtain ⟨c, hc⟩ := gen_step_shape hstep
      have hg : g = g0 ++ [c] := congrArg Prod.fst hc
      have hp : p = p0.drop 1 ++ [c] := congrArg Prod.snd hc
      constructor
      · rw [hp, List.length_append, List.length_drop, List.length_cons,
          List.length_nil]
        omega
      · cases p0 with
        | nil =>
            refine ⟨g0, ?_⟩
            rw [hg, hp]
            rfl
        | cons a rest =>
            refine ⟨pre0 ++ [a], ?_⟩
            rw [hg, hp, hpre0, List.drop_one, List.tail_cons]
            simp [List.append_assoc]

theorem sample_one_stub_eval :
    sample_one (1/2) [(0.1 : ℝ), 0.1, 0.8] 1 = some 2 := by
  have h1 : mapLogExp 1 [(0.1 : ℝ), 0.1, 0.8] = some [(0.1 : ℝ), 0.1, 0.8] :=
    mapLogExp_cons (npLogDivExp_one (by norm_num))
      (mapLogExp_cons (npLogDivExp_one (by norm_num))
        (mapLogExp_cons (npLogDivExp_one (by norm_num)) (mapLogExp_nil 1)))
  have h2 : sample_one_weights [(0.1 : ℝ), 0.1, 0.8] 1 =
      some [(0.1 : ℝ), 0.1, 0.8] := by
    rw [sample_one_weights, h1]
    norm_num
  rw [sample_one, h2]
  show some (np_argmax (np_multinomial_one (1/2) [(0.1 : ℝ), 0.1, 0.8])) = some 2
  have h3 : categorical_draw (1/2) [(0.1 : ℝ), 0.1, 0.8] = 2 := by
    rw [categorical_draw, if_neg (by norm_num), categorical_draw,
      if_neg (by norm_num), categorical_draw, if_pos (by norm_num)]
  rw [np_multinomial_one, List.length_cons, List.length_cons, List.length_cons,
    List.length_nil, h3]
  decide

theorem gen_step_stub (g p : List Char)
    (h : (vectorize 2 ['a', 'b', 'c'] p).isSome = true) :
    gen_step 2 ['a', 'b', 'c'] stubModel 1 (1/2) (g, p) =
      some (g ++ ['c'], p.drop 1 ++ ['c']) := by
  obtain ⟨x, hx⟩ := Option.isSome_iff_exists.mp h
  show (vectorize 2 ['a', 'b', 'c'] p).bind _ = _
  rw [hx, Option.some_bind]
  have hs : sample_one (1/2) (stubModel x) 1 = some 2 := sample_one_stub_eval
  show (sample_one (1/2) (stubModel x) 1).bind (fun i =>
      (indices_char ['a', 'b', 'c'] i).bind (fun c =>
        some (g ++ [c], p.drop 1 ++ [c]))) =
    some (g ++ ['c'], p.drop 1 ++ ['c'])
  rw [hs, Option.some_bind]
  rfl

theorem gen_steps_stub_two :
    gen_steps 2 ['a', 'b', 'c'] stubModel (fun _ => (1 : ℝ)/2) 1 2
      (['a'], ['a']) = some (['a', 'c', 'c'], ['c']) := by
  have s1 : gen_step 2 ['a', 'b', 'c'] stubModel 1 (1/2) (['a'], ['a']) =
      some (['a', 'c'], ['c']) := gen_step_stub ['a'] ['a'] rfl
  have s2 : gen_step 2 ['a', 'b', 'c'] stubModel 1 (1/2) (['a', 'c'], ['c']) =
      some (['a', 'c', 'c'], ['c']) := gen_step_stub ['a', 'c'] ['c'] rfl
  rw [gen_steps_succ, gen_steps_succ, gen_steps_zero]
  show ((some ((['a'], ['a']) : List Char × List Char)).bind
      (gen_step 2 ['a', 'b', 'c'] stubModel 1 (1/2))).bind
      (gen_step 2 ['a', 'b', 'c'] stubModel 1 (1/2)) =
    some (['a', 'c', 'c'], ['c'])
  rw [Option.some_bind, s1, Option.some_bind, s2]

theorem generate_text_stub_run :
    generate_text 2 ['a', 'b', 'c'] stubModel (fun _ => (1 : ℝ)/2) [] 3 1 =
      some ['c', 'c', 'c'] := by
  have s1 : gen_step 2 ['a', 'b', 'c'] stubModel 1 (1/2) ([], []) =
      some (['c'], ['c']) := gen_step_stub [] [] rfl
  have s2 : gen_step 2 ['a', 'b', 'c'] stubModel 1 (1/2) (['c'], ['c']) =
      some (['c', 'c'], ['c']) := gen_step_stub ['c'] ['c'] rfl
  have s3 : gen_step 2 ['a', 'b', 'c'] stubModel 1 (1/2) (['c', 'c'], ['c']) =
      some (['c', 'c', 'c'], ['c']) := gen_step_stub ['c', 'c'] ['c'] rfl
  have h3 : gen_steps 2 ['a', 'b', 'c'] stubModel (fun _ => (1 : ℝ)/2) 1 3
      ([], []) = some (['c', 'c', 'c'], ['c']) := by
    rw [gen_steps_succ, gen_steps_succ, gen_steps_succ, gen_steps_zero]
    show (((some (([], []) : List Char × List Char)).bind
        (gen_step 2 ['a', 'b', 'c'] stubModel 1 (1/2))).bind
        (gen_step 2 ['a', 'b', 'c'] stubModel 1 (1/2))).bind
        (gen_step 2 ['a', 'b', 'c'] stubModel 1 (1/2)) =
      some (['c', 'c', 'c'], ['c'])
    rw [Option.some_bind, s1, Option.some_bind, s2, Option.some_bind, s3]
  rw [generate_text, h3]
  rfl

/-- C5 counterexample: with `W = 2`, vocabulary `['a','b','c']`, seed `"a"`,
the stub model and draws always selecting index 2, after two steps the
generated sequence is `"acc"` but the conditioning window kept by the code is
`"c"` (length 1), not the last `min(W, len(generated)) = 2` symbols `"cc"`:
`prefix = prefix[1:] + next_char` keeps the window at the seed's length
forever, so it never grows to `W`. -/
theorem generation_window_not_min_of_W :
    gen_steps 2 ['a', 'b', 'c'] stubModel (fun _ => (1 : ℝ)/2) 1 2
      (['a'], ['a']) = some (['a', 'c', 'c'], ['c']) ∧
    ['c'] ≠ (['a', 'c', 'c']).drop
      ((['a', 'c', 'c']).length - min 2 (['a', 'c', 'c']).length) :=
  ⟨gen_steps_stub_two, by decide⟩

/-- C5 amended: the conditioning window after `n` steps is a suffix of the
generated sequence of constant length `max(len(seed), min(n, 1))`: it stays at
the seed's length (or becomes the single last symbol when the seed is empty)
and in particular never grows to `W` when the seed is shorter than `W`. -/
theorem generation_window_constant (W : ℕ) (vocab : List Char)
    (model : List (List ℝ) → List ℝ) (us : ℕ → ℝ) (temperature : ℝ)
    (seed_string : List Char) (n : ℕ) (g p : List Char)
    (h : gen_steps W vocab model us temperature n (seed_string, seed_string) =
      some (g, p)) :
    p.length = max seed_string.length (min n 1) ∧ ∃ pre, g = pre ++ p :=
  gen_steps_window W vocab model us temperature n (seed_string, seed_string)
    g p h ⟨[], rfl⟩

/-- Witness for the amended C5 on the two-step stub run from seed `"a"`. -/
theorem generation_window_constant_witness :
    (['c'] : List Char).length =
      max (['a'] : List Char).length (min 2 1) ∧
    ∃ pre, (['a', 'c', 'c'] : List Char) = pre ++ ['c'] :=
  generation_window_constant 2 ['a', 'b', 'c'] stubModel
    (fun _ => (1 : ℝ)/2) 1 ['a'] 2 ['a', 'c', 'c'] ['c'] gen_steps_stub_two

/-- C7: whenever `generate_text` succeeds, it returns the full generated
sequence: it starts with the original seed string and has total length
`len(seed) + length`. -/
theorem generate_text_includes_seed (W : ℕ) (vocab : List Char)
    (model : List (List ℝ) → List ℝ) (us : ℕ → ℝ) (seed_string : List Char)
    (len : ℕ) (temperature : ℝ) (out : List Char) (ht : 0 < temperature)
    (h : generate_text W vocab model us seed_string len temperature =
      some out) :
    out.length = seed_string.length + len ∧
    out.take seed_string.length = seed_string := by
  rw [generate_text] at h
  obtain ⟨⟨g, p⟩, hst, hfst⟩ := Option.map_eq_some'.mp h
  subst hfst
  exact gen_steps_generated W vocab model us temperature len
    (seed_string, seed_string) g p hst

/-- Witness for C7 on the concrete stub run: seed `""`, length 3, output
`"ccc"`. -/
theorem generate_text_includes_seed_witness :
    ((0 : ℝ) < 1) ∧
    ((['c', 'c', 'c'] : List Char).length = ([] : List Char).length + 3 ∧
     (['c', 'c', 'c'] : List Char).take ([] : List Char).length = []) :=
  ⟨one_pos,
   generate_text_includes_seed 2 ['a', 'b', 'c'] stubModel
     (fun _ => (1 : ℝ)/2) [] 3 1 ['c', 'c', 'c'] one_pos
     generate_text_stub_run⟩

/-- C8: the spec's concrete scenario: vocabulary `['a','b','c']` (indices
0,1,2 in sorted order), `W = 2`, empty seed, a stub model always returning
`[0.1, 0.1, 0.8]`, temperature 1 and a random source whose every uniform draw
(here `u = 1/2`) selects index 2: generating 3 symbols returns `"ccc"`. -/
theorem generate_text_concrete_ccc :
    generate_text 2 ['a', 'b', 'c'] stubModel (fun _ => (1 : ℝ)/2) [] 3 1 =
      some ['c', 'c', 'c'] :=
  generate_text_stub_run

/-! ### Vocabulary round trip -/

/-- C6: for every vocabulary built from a corpus and every symbol present in
it, mapping the symbol to its index (`char_indices`) and back
(`indices_char`) returns the same symbol. -/
theorem vocabulary_round_trip (corpus : List Char) (s : Char)
    (h : s ∈ build corpus) :
    (char_indices (build corpus) s).bind (indices_char (build corpus)) =
      some s := by
  rw [char_indices, if_pos h, Option.some_bind, indices_char]
  have hlt : List.indexOf s (build corpus) < (build corpus).length :=
    List.indexOf_lt_length.mpr h
  rw [List.get?_eq_get hlt, List.indexOf_get]

/-- Witness for C6 at corpus `"cab"` and symbol `'b'`. -/
theorem vocabulary_round_trip_witness :
    ('b' ∈ build ['c', 'a', 'b']) ∧
    (char_indices (build ['c', 'a', 'b']) 'b').bind
      (indices_char (build ['c', 'a', 'b'])) = some 'b' :=
  ⟨by decide, vocabulary_round_trip ['c', 'a', 'b'] 'b' (by decide)⟩

/-! ### One-hot embedding lookup -/

theorem list_map_getD_range (l : List ℝ) :
    (List.range l.length).map (fun c => l.getD c 0) = l := by
  apply List.ext_getElem
  · simp
  · intro n h1 h2
    simp only [List.getElem_map, List.getElem_range]
    rw [List.getD_eq_getElem _ _ h2]

/-- C10: computing an embedding by one-hot encoding then matrix product
equals direct row indexing: for every `label < dim` and matrix `M` with `dim`
rows of equal width, `np.dot(onehot_encode(dim, label), M)` is row `label` of
`M`. -/
theorem onehot_dot_eq_row (dim label m : ℕ) (M : List (List ℝ))
    (hlab : label < dim) (hM : M.length = dim)
    (hrows : ∀ row ∈ M, row.length = m) :
    np_dot (onehot_encode dim label) M = M.getD label [] := by
  have hlabM : label < M.length := by omega
  have hhead : (M.headD []).length = m := by
    cases M with
    | nil => simp at hM; omega
    | cons r M2 => exact hrows r (List.mem_cons_self r M2)
  have hR : M.getD label [] ∈ M := by
    rw [List.getD_eq_getElem _ _ hlabM]
    exact List.getElem_mem hlabM
  have hRlen : (M.getD label []).length = m := hrows _ hR
  have hvlen : (onehot_encode dim label).length = dim := by
    simp [onehot_encode]
  have hv_at : ∀ i, i < dim →
      (onehot_encode dim label).getD i 0 = if i = label then 1 else 0 := by
    intro i hi
    rw [onehot_encode, List.getD_eq_getElem _ _ (by simpa using hi)]
    simp
  have hsum : ∀ c, (∑ i ∈ Finset.range (onehot_encode dim label).length,
      (onehot_encode dim label).getD i 0 * ((M.getD i []).getD c 0)) =
      (M.getD label []).getD c 0 := by
    intro c
    rw [hvlen, Finset.sum_eq_single label]
    · rw [hv_at label hlab, if_pos rfl, one_mul]
    · intro b hb hne
      rw [hv_at b (Finset.mem_range.mp hb), if_neg hne, zero_mul]
    · intro hnot
      exact absurd (Finset.mem_range.mpr hlab) hnot
  rw [np_dot, hhead, List.map_congr_left (fun c _ => hsum c), ← hRlen,
    list_map_getD_range]

/-- Witness for C10 at `dim = 2`, `label = 1`, `M = [[1,2],[3,4]]`. -/
theorem onehot_dot_eq_row_witness :
    ((1 : ℕ) < 2) ∧
    np_dot (onehot_encode 2 1) [[(1 : ℝ), 2], [3, 4]] =
      ([[(1 : ℝ), 2], [3, 4]]).getD 1 [] :=
  ⟨by decide,
   onehot_dot_eq_row 2 1 2 [[(1 : ℝ), 2], [3, 4]] (by decide) (by decide)
     (by simp)⟩

end CharLM
